import Mathlib

/-!
# Verification of the ccal association pipeline (`ccal/association.py`)

Shallow embedding of the association-scoring pipeline:

* a pandas `Series` is a list of (sample key, value) pairs;
* a pandas `DataFrame` of features is a list of (feature id, row) pairs,
  each row again a list of (sample key, value) pairs;
* machine floats are embedded as exact rationals `ℚ` (real-valued
  library calls such as `sqrt` and `norm.ppf` appear only in the
  bootstrap margin-of-error formula, embedded over `ℝ`);
* the pluggable scoring function is an arbitrary
  `List ℚ → List ℚ → ℚ`;
* randomness (`numpy.random.choice`, `numpy.random.shuffle`) is
  modelled by oracle parameters carrying the drawn keys / applied
  permutations, constrained by hypotheses;
* sample keys are embedded as `Nat`.  Python truthiness of a key
  (`any(shared)` in the source iterates the shared keys and tests each
  for truthiness, so the integer key `0` is falsy) is modelled by
  `pyTruthy`.
-/

namespace CCAL

/-- Sample identifier (a pandas index label; integer labels are common,
e.g. a default `RangeIndex`, and `0` is a legitimate label). -/
abbrev Key := Nat

/-- A numeric cell value (Python float, embedded exactly). -/
abbrev Val := ℚ

/-- Feature identifier (row label of the feature matrix). -/
abbrev FId := Nat

/-- A pandas `Series`: ordered (index label, value) pairs. -/
abbrev Series := List (Key × Val)

/-- One row of the feature matrix, with its column labels. -/
abbrev Row := List (Key × Val)

/-- A pandas `DataFrame` of features: ordered (row label, row) pairs. -/
abbrev Frame := List (FId × Row)

/-- The pluggable scoring function `function(a, b)` of `associate`:
total over two numeric vectors. -/
abbrev ScoreFun := List Val → List Val → Val

/-- Errors raised by `make_association_panel` (both are `ValueError`s
in the source; we separate them by their message). -/
inductive AssocError where
  /-- "Target ... and features ... have 0 shared columns." -/
  | inputMismatch : AssocError
  /-- "No feature has at least 2 unique values." -/
  | noViableFeatures : AssocError
deriving DecidableEq, Repr

/-- Python truthiness of an integer index label: `0` is falsy. -/
def pyTruthy (k : Key) : Bool := k ≠ 0

/-- Python's builtin `any` over an iterable of keys: true iff some
element is truthy. -/
def pyAny (ks : List Key) : Bool := ks.any pyTruthy

/-- Index labels of a `Series` (its `.index`). -/
def keysOf (s : Series) : List Key := s.map (·.1)

/-- Values of a `Series`, in index order (its `.values`). -/
def valsOf (s : Series) : List Val := s.map (·.2)

/-- Column labels of a `DataFrame` (taken from its first row; a
well-formed frame has identical labels on every row). -/
def frameCols (F : Frame) : List Key :=
  match F with
  | [] => []
  | r :: _ => keysOf r.2

/-- Row labels of a `DataFrame` (its `.index`). -/
def frameIds (F : Frame) : List FId := F.map (·.1)

/-- Label lookup in a `Series` (`s.ix[k]`); `0` when absent (alignment
only looks up labels that are present). -/
def seriesGet (s : Series) (k : Key) : Val :=
  match s.find? (fun kv => kv.1 = k) with
  | some kv => kv.2
  | none => 0

/-- Label-based reindexing of a `Series` (`s.ix[ks]`): one entry per
requested label, in requested order, duplicates allowed. -/
def reindex (s : Series) (ks : List Key) : Series :=
  ks.map (fun k => (k, seriesGet s k))

/-- Row lookup in a `DataFrame` by row label (`F.ix[i, :]`); `[]` when
absent. -/
def frameGet (F : Frame) (i : FId) : Row :=
  match F.find? (fun ir => ir.1 = i) with
  | some ir => ir.2
  | none => []

/-- `target.index & features.columns`: the shared sample labels, in
target-index order. -/
def sharedKeys (target : Series) (F : Frame) : List Key :=
  (keysOf target).filter (fun k => (frameCols F).contains k)

/-- `target.ix[shared].sort_values(ascending=False)`: restrict to the
given labels and sort by value, descending (`sort_values` is not
stable across ties; any tie order satisfies the spec, we fix a stable
sort). -/
def sortValuesDesc (s : Series) : Series :=
  List.insertionSort (fun a b => b.2 ≤ a.2) s

/-- `features.ix[:, ks]`: reorder every row's columns to the labels
`ks`. -/
def frameReindexCols (F : Frame) (ks : List Key) : Frame :=
  F.map (fun ir => (ir.1, reindex ir.2 ks))

/-- Lines 108–121 of `make_association_panel`: keep only the columns
shared by target and features; raise when `any(shared)` is false;
otherwise sort the target descending and reorder the feature columns
to the target's order. -/
def align (target : Series) (F : Frame) :
    Except AssocError (Series × Frame) :=
  let shared := sharedKeys target F
  if pyAny shared then
    let t := sortValuesDesc (reindex target shared)
    .ok (t, frameReindexCols F (keysOf t))
  else
    .error .inputMismatch

/-- `len(set(f))` for a row `f`: the number of distinct values. -/
def nDistinct (r : Row) : Nat := (valsOf r).dedup.length

/-- Lines 123–130 of `make_association_panel`: drop features having
less than 2 unique values; raise `NoViableFeatures` when none
remain. -/
def dropDegenerate (F : Frame) : Except AssocError Frame :=
  let kept := F.filter (fun ir => 2 ≤ nDistinct ir.2)
  if kept.isEmpty then .error .noViableFeatures else .ok kept

/-- The preprocessing prefix of `make_association_panel` that runs
before any scoring: align, then drop degenerate features. -/
def prepare (target : Series) (F : Frame) :
    Except AssocError (Series × Frame) :=
  match align target F with
  | .error e => .error e
  | .ok (t, Fa) =>
    match dropDegenerate Fa with
    | .error e => .error e
    | .ok Fk => .ok (t, Fk)

/-! ## Scoring (`_score`, lines 414–423) -/

/-- One row of `_score`: `func(t, a_f)` — target first, feature
second. -/
def scoreOne (func : ScoreFun) (t : Series) (ir : FId × Row) :
    FId × Val :=
  (ir.1, func (valsOf t) (valsOf ir.2))

/-- `_score((target, features, function))`: one score per row,
preserving row labels. -/
def scoreFeatures (func : ScoreFun) (t : Series) (F : Frame) :
    List (FId × Val) :=
  F.map (scoreOne func t)

/-! ## Partitioner (`associate`, lines 235–270) -/

/-- Modelled from the spec: `parallelize` lives in `ccal.support`,
which is not part of the sources here.  Per spec §4.2 the Partitioner
dispatches each chunk to an independent worker and collects the
per-chunk results in any order; the arrival order is a model
parameter, a permutation of the chunk positions. -/
def parallelize (work : α → List β) (args : List α)
    (arrival : List Nat) : List (List β) :=
  arrival.filterMap (fun j => (args.map work)[j]?)

/-- `features.iloc[i*n_per_job:(i+1)*n_per_job, :]` for
`i in range(n_jobs)`. -/
def chunksOf (F : Frame) (nPerJob nJobs : Nat) : List Frame :=
  (List.range nJobs).map (fun i => (F.drop (i * nPerJob)).take nPerJob)

/-- The leftover bookkeeping of `associate`: start from
`list(features.index)` and `remove` every row label that went into a
chunk, in dispatch order. -/
def leftoverIds (F : Frame) (nPerJob nJobs : Nat) : List FId :=
  ((chunksOf F nPerJob nJobs).map frameIds).flatten.foldl
    (fun acc i => acc.erase i) (frameIds F)

/-- `features.ix[leftovers, :]`: select rows by label, in the order of
the label list. -/
def frameSelectRows (F : Frame) (ids : List FId) : Frame :=
  ids.map (fun i => (i, frameGet F i))

/-- The scoring stage of `associate` (lines 235–270): sequential when
`n_jobs == 1` or when `n_per_job < min_n_per_job`; otherwise chunk,
dispatch through `parallelize`, concatenate the collected chunk
results, and append the sequentially scored leftovers. -/
def scoreStage (func : ScoreFun) (t : Series) (F : Frame)
    (nJobs minNPerJob : Nat) (arrival : List Nat) : List (FId × Val) :=
  if nJobs = 1 then
    scoreFeatures func t F
  else
    let nPerJob := F.length / nJobs
    if nPerJob < minNPerJob then
      scoreFeatures func t F
    else
      let chunks := chunksOf F nPerJob nJobs
      let main := (parallelize (scoreFeatures func t) chunks arrival).flatten
      let lids := leftoverIds F nPerJob nJobs
      if lids.isEmpty then main
      else main ++ scoreFeatures func t (frameSelectRows F lids)

/-- `scores.sort_values('score', ascending=features_ascending)`. -/
def sortScores (ascending : Bool) (scores : List (FId × Val)) :
    List (FId × Val) :=
  if ascending then List.insertionSort (fun a b => a.2 ≤ b.2) scores
  else List.insertionSort (fun a b => b.2 ≤ a.2) scores

/-! ## Bootstrap estimator (`associate`, lines 276–329) -/

/-- `int(ceil(0.632 * m))`, computed exactly over the rationals. -/
def ceil632 (m : Nat) : Nat := (632 * m + 999) / 1000

/-- `Series.quantile(q)` with the default linear interpolation:
position `h = (n-1)*q` into the ascending-sorted values. -/
def quantile (xs : List Val) (q : ℚ) : ℚ :=
  let sorted := List.insertionSort (· ≤ ·) xs
  let n := sorted.length
  let h : ℚ := ((n : ℚ) - 1) * q
  let lo := sorted.getD (⌊h⌋).toNat 0
  let hi := sorted.getD (⌈h⌉).toNat 0
  lo + (h - (⌊h⌋ : ℚ)) * (hi - lo)

/-- `indices_to_bootstrap` (lines 288–308): quantile cut when
`n_features < 1`, otherwise top-`N` and bottom-`N` of the sorted score
table (all of it when `2N` covers it); the integer branch reads
`n_features` as an int. -/
def selectToBootstrap (nFeat : ℚ) (scores : List (FId × Val)) :
    List FId :=
  if nFeat < 1 then
    let qTop := quantile (scores.map (·.2)) nFeat
    let qBot := quantile (scores.map (·.2)) (1 - nFeat)
    (scores.filter (fun is => qTop ≤ is.2 ∨ is.2 ≤ qBot)).map (·.1)
  else
    let N := (⌊nFeat⌋).toNat
    if scores.length ≤ 2 * N then scores.map (·.1)
    else (scores.take N).map (·.1)
      ++ (scores.drop (scores.length - N)).map (·.1)

/-- One bootstrap round (lines 314–320) for drawn sample keys `ks`:
`sampled_features.apply(lambda f: function(f, sampled_target))` —
feature first, resampled target second; both restricted to the drawn
keys in drawn order, duplicates kept. -/
def bootRound (func : ScoreFun) (t : Series) (F : Frame)
    (sel : List FId) (ks : List Key) : List (FId × Val) :=
  sel.map (fun i =>
    (i, func (valsOf (reindex (frameGet F i) ks)) (valsOf (reindex t ks))))

/-- The `sampled_scores` table, built column by column: one column per
round of drawn keys. -/
def sampledScores (func : ScoreFun) (t : Series) (F : Frame)
    (sel : List FId) (draws : List (List Key)) :
    List (List (FId × Val)) :=
  draws.map (bootRound func t F sel)

/-- Score lookup by feature label in one column. -/
def lookupScore (col : List (FId × Val)) (i : FId) : Val :=
  match col.find? (fun iv => iv.1 = i) with
  | some iv => iv.2
  | none => 0

/-- Row `i` of the `sampled_scores` table: feature `i`'s bootstrap
score sample across the rounds. -/
def featureSample (cols : List (List (FId × Val))) (i : FId) :
    List Val :=
  cols.map (fun c => lookupScore c i)

/-- Arithmetic mean. -/
def listMean (xs : List ℚ) : ℚ := xs.sum / xs.length

/-- Sample variance with `pandas.Series.std()`'s default `ddof=1`. -/
def sampleVar (xs : List ℚ) : ℚ :=
  ((xs.map (fun x => (x - listMean xs) ^ 2)).sum) / ((xs.length : ℚ) - 1)

/-- `f.std()`: the sample standard deviation, over `ℝ`. -/
noncomputable def stdDev (xs : List ℚ) : ℝ := Real.sqrt (sampleVar xs)

/-- `z_critical * (f.std() / sqrt(n_samplings))` (lines 324–326); the
parameter `z` stands for `norm.ppf(q=confidence)`, the inverse normal
CDF at the confidence level. -/
noncomputable def marginOfError (z : ℝ) (xs : List ℚ) (R : Nat) : ℝ :=
  z * (stdDev xs / Real.sqrt (R : ℝ))

/-- The skip decision of lines 278–285: not numeric `n_features`, or
`n_samplings < 2`, or `ceil(0.632 * n_samples) < 3`. -/
def bootstrapSkipped (nFeat : Option ℚ) (nSamplings m : Nat) : Bool :=
  match nFeat with
  | none => true
  | some _ =>
    if nSamplings < 2 then true
    else if ceil632 m < 3 then true
    else false

/-- The bootstrap stage of `associate` (lines 276–329): `none` when
skipped, otherwise one margin of error per selected feature.
`n_features` is `Option ℚ`: `some` for Python int/float, `none`
otherwise. -/
noncomputable def bootstrapStage (func : ScoreFun) (t : Series)
    (F : Frame) (nFeat : Option ℚ) (nSamplings : Nat) (z : ℝ)
    (scores : List (FId × Val)) (draws : List (List Key)) :
    Option (List (FId × ℝ)) :=
  if bootstrapSkipped nFeat nSamplings (frameCols F).length then none
  else
    let sel := selectToBootstrap (nFeat.getD 0) scores
    let cols := sampledScores func t F sel draws
    some (sel.map (fun i =>
      (i, marginOfError z (featureSample cols i) nSamplings)))

/-! ## Permutation tester (`_permute_and_score`, lines 426–445) -/

/-- The mutable locals of `_permute_and_score`: the caller's target
Series `t` and the numpy array `shuffled_target = array(t)` (a copy of
the target's values). -/
structure PermHeap where
  targetCell : Series
  shuffledCell : List Val
deriving Repr

/-- One in-place `numpy.random.shuffle`, with the drawn rearrangement
`σ` (a permutation of the positions) made explicit. -/
def applyPerm (σ : List Nat) (l : List Val) : List Val :=
  σ.map (fun j => l.getD j 0)

/-- `shuffle(shuffled_target)`: writes only the `shuffled_target`
cell. -/
def permStep (h : PermHeap) (σ : List Nat) : PermHeap :=
  { h with shuffledCell := applyPerm σ h.shuffledCell }

/-- One permutation column:
`f.apply(lambda r: func(shuffled_target, r))` — shuffled target first,
feature second. -/
def permScoreCol (func : ScoreFun) (F : Frame) (sh : List Val) :
    List (FId × Val) :=
  F.map (fun ir => (ir.1, func sh (valsOf ir.2)))

/-- The round loop of `_permute_and_score`: shuffle, then score every
feature against the current shuffled target.  Each round records the
vector that was scored against together with its score column. -/
def permRounds (func : ScoreFun) (F : Frame) :
    PermHeap → List (List Nat) →
    List (List Val × List (FId × Val)) × PermHeap
  | h, [] => ([], h)
  | h, σ :: σs =>
    let h1 := permStep h σ
    let col := (h1.shuffledCell, permScoreCol func F h1.shuffledCell)
    let rest := permRounds func F h1 σs
    (col :: rest.1, rest.2)

/-- `_permute_and_score((target, features, function, n_permutations))`
with the `n_permutations` shuffles given as the oracle list `σs`:
copies the target's values (`array(t)`), then runs the rounds. -/
def permuteAndScore (func : ScoreFun) (t : Series) (F : Frame)
    (σs : List (List Nat)) :
    List (List Val × List (FId × Val)) × PermHeap :=
  permRounds func F ⟨t, valsOf t⟩ σs

/-! ## P-values and FDR (`associate`, lines 387–404) -/

/-- `permutation_scores.values.flatten()`: the n × P table, flattened
row-major (per feature, then per round). -/
def flattenPermScores (F : Frame)
    (rounds : List (List Val × List (FId × Val))) : List Val :=
  ((frameIds F).map (fun i => rounds.map (fun rc => lookupScore rc.2 i))).flatten

/-- Lines 392–394: the empirical p-value of a real score `s` —
`count(pooled null > s) / (n_permutations * features.shape[0])`, and
the floor `1 / (n_permutations * scores.shape[0])` when that is
exactly zero. -/
def pValueOf (allPerm : List Val) (s : Val)
    (nFeatures nScores nPermutations : Nat) : ℚ :=
  let p : ℚ := ((allPerm.filter (fun v => decide (s < v))).length : ℚ)
    / ((nPermutations * nFeatures : Nat) : ℚ)
  if p = 0 then (1 : ℚ) / ((nPermutations * nScores : Nat) : ℚ) else p

/-- The p-value column: one p-value per row of the sorted score
table. -/
def pValueCol (allPerm : List Val) (scores : List (FId × Val))
    (nFeatures nPermutations : Nat) : List (FId × ℚ) :=
  scores.map (fun is =>
    (is.1, pValueOf allPerm is.2 nFeatures scores.length nPermutations))

/-- Suffix minima: `np.minimum.accumulate(xs[::-1])[::-1]`. -/
def sufMin : List ℚ → List ℚ
  | [] => []
  | x :: xs =>
    match sufMin xs with
    | [] => [x]
    | y :: ys => min x y :: y :: ys

/-- `statsmodels.multipletests(ps, method='fdr_bh')[1]`: argsort the
p-values ascending, divide by the ECDF factor `rank/n`, take suffix
minima, clip at 1, and scatter back to the original positions. -/
def bh (ps : List ℚ) : List ℚ :=
  let n := ps.length
  let sortedPairs := List.insertionSort (fun a b => a.2 ≤ b.2) ps.enum
  let raw := sortedPairs.enum.map
    (fun re => re.2.2 * (n : ℚ) / ((re.1 : ℚ) + 1))
  let corrected := (sufMin raw).map (fun c => min c 1)
  let scatter := (sortedPairs.map (·.1)).zip corrected
  (List.range n).map (fun i =>
    match scatter.find? (fun jc => jc.1 = i) with
    | some jc => jc.2
    | none => 0)

/-- Lines 398–401: forward FDR = BH on the p-values, reverse FDR = BH
on `1 - p`, combined FDR = row-wise minimum of the two. -/
def fdrCols (ps : List ℚ) : List ℚ × List ℚ × List ℚ :=
  let fwd := bh ps
  let rev := bh (ps.map (fun p => 1 - p))
  (fwd, rev, fwd.zipWith min rev)

/-! ## The `associate` pipeline -/

/-- The merged result table of `associate`: the score column, then the
optional margin-of-error column and the optional p-value / combined
FDR columns (absent when their stage was skipped). -/
structure AssocResult where
  scores : List (FId × Val)
  moeCol : Option (List (FId × ℝ))
  pvalCol : Option (List (FId × ℚ))
  fdrCol : Option (List (FId × ℚ))

/-- `associate` (lines 211–411): score (via the Partitioner), sort,
bootstrap (skippable), permutation test with p-values and FDR
(skippable when `n_permutations < 1`).  The permutation stage is
modelled along its sequential path; its oracle is the shuffle list
`σs`. -/
noncomputable def associate (func : ScoreFun) (t : Series) (F : Frame)
    (nJobs minNPerJob : Nat) (featuresAscending : Bool)
    (nFeat : Option ℚ) (nSamplings : Nat) (z : ℝ)
    (nPermutations : Nat) (arrival : List Nat)
    (draws : List (List Key)) (σs : List (List Nat)) : AssocResult :=
  let scores := sortScores featuresAscending
    (scoreStage func t F nJobs minNPerJob arrival)
  let moe := bootstrapStage func t F nFeat nSamplings z scores draws
  if nPermutations < 1 then ⟨scores, moe, none, none⟩
  else
    let rounds := (permuteAndScore func t F σs).1
    let pooled := flattenPermScores F rounds
    let pvals := pValueCol pooled scores F.length nPermutations
    let comb := (fdrCols (pvals.map (·.2))).2.2
    ⟨scores, moe, some pvals, some ((pvals.map (·.1)).zip comb)⟩

/-! ## Helper lemmas -/

/-- In an association list with pairwise-distinct keys, `find?` on a
key returns the unique entry holding it. -/
theorem find?_key_eq {α : Type _} :
    ∀ (l : List (FId × α)) (i : FId) (v : α),
      (i, v) ∈ l → (l.map (·.1)).Nodup →
      l.find? (fun p => decide (p.1 = i)) = some (i, v) := by
  intro l i v hmem hnd
  induction l with
  | nil => simp at hmem
  | cons a l ih =>
    simp only [List.map_cons, List.nodup_cons] at hnd
    rcases List.mem_cons.mp hmem with h | h
    · subst h
      simp [List.find?_cons]
    · have hne : a.1 ≠ i := by
        intro he
        exact hnd.1 (he ▸ List.mem_map.mpr ⟨(i, v), h, rfl⟩)
      rw [List.find?_cons]
      simp only [decide_eq_false hne, Bool.false_eq_true, if_false]
      exact ih h hnd.2

/-- `lookupScore` returns the stored score when keys are distinct. -/
theorem lookupScore_eq_of_mem (col : List (FId × Val)) (i : FId)
    (v : Val) (hmem : (i, v) ∈ col) (hnd : (col.map (·.1)).Nodup) :
    lookupScore col i = v := by
  unfold lookupScore
  rw [find?_key_eq col i v hmem hnd]

/-- `frameGet` returns the stored row when row labels are distinct. -/
theorem frameGet_eq_of_mem (F : Frame) (i : FId) (r : Row)
    (hmem : (i, r) ∈ F) (hnd : (frameIds F).Nodup) :
    frameGet F i = r := by
  unfold frameGet
  rw [find?_key_eq F i r hmem hnd]

/-- Score tables that are permutations of each other and have distinct
keys agree on every lookup. -/
theorem lookupScore_perm (l l' : List (FId × Val))
    (hp : l.Perm l') (hnd : (l'.map (·.1)).Nodup) (i : FId)
    (hi : i ∈ l'.map (·.1)) : lookupScore l i = lookupScore l' i := by
  obtain ⟨p, hpmem, hfst⟩ := List.mem_map.mp hi
  obtain ⟨pi, pv⟩ := p
  simp only at hfst
  subst hfst
  have hnd1 : (l.map (·.1)).Nodup := ((hp.map (·.1)).nodup_iff).mpr hnd
  rw [lookupScore_eq_of_mem l pi pv (hp.symm.subset hpmem) hnd1,
    lookupScore_eq_of_mem l' pi pv hpmem hnd]

/-- `keysOf` of a reindexed series is the requested key list. -/
theorem keysOf_reindex (s : Series) (ks : List Key) :
    keysOf (reindex s ks) = ks := by
  simp [keysOf, reindex, Function.comp_def]

/-- `scoreFeatures` keeps the row labels, in order. -/
theorem scoreFeatures_ids (func : ScoreFun) (t : Series) (F : Frame) :
    (scoreFeatures func t F).map (·.1) = frameIds F := by
  simp [scoreFeatures, frameIds, scoreOne]

/-! ## C6 — InputMismatch versus empty intersection -/

/-- C6: the claim says the zero-shared-columns error is raised iff the
intersection of the sample identifiers is empty.  The source tests
`any(shared)`, which checks Python truthiness of the shared labels, so
a target and feature matrix whose only shared sample label is the
(perfectly legal) integer label `0` share one column yet still raise
the "0 shared columns" error — the code contradicts its own error
message. -/
theorem c6_inputMismatch_truthiness :
    sharedKeys [(0, 1)] [(7, [(0, 5)])] = [0] ∧
    sharedKeys [(0, 1)] [(7, [(0, 5)])] ≠ [] ∧
    align [(0, 1)] [(7, [(0, 5)])] = .error .inputMismatch := by
  refine ⟨by decide, by decide, rfl⟩

/-! ## C3 — alignment -/

/-- C3 counterexample: the claim quantifies over every target and
feature matrix sharing at least one sample identifier, but when the
only shared identifier is the falsy label `0` the alignment step
raises instead of aligning, so no aligned output exists. -/
theorem c3_alignment_counterexample :
    sharedKeys [(0, 1)] [(9, [(0, 5)])] ≠ [] ∧
    align [(0, 1)] [(9, [(0, 5)])] = .error .inputMismatch := by
  refine ⟨by decide, rfl⟩

/-- C3 (amended): for every target and feature matrix whose shared
sample identifiers contain at least one truthy label, the alignment
step restricts both to the intersection of their sample identifiers —
the aligned target holds, as a permutation, exactly the target's
(key, value) entries at the shared labels — sorts the target
descending by value (ties in any order), and reorders every feature
row's columns to exactly the target's resulting sample order. -/
theorem c3_alignment (target : Series) (F : Frame)
    (h : pyAny (sharedKeys target F) = true) :
    ∃ t' F', align target F = .ok (t', F') ∧
      t'.Perm (reindex target (sharedKeys target F)) ∧
      (keysOf t').Perm (sharedKeys target F) ∧
      t'.Pairwise (fun a b => b.2 ≤ a.2) ∧
      frameIds F' = frameIds F ∧
      ∀ p ∈ F', ∃ r₀, (p.1, r₀) ∈ F ∧
        p.2 = (keysOf t').map (fun k => (k, seriesGet r₀ k)) := by
  refine ⟨sortValuesDesc (reindex target (sharedKeys target F)),
    frameReindexCols F (keysOf (sortValuesDesc (reindex target (sharedKeys target F)))),
    ?_, ?_, ?_, ?_, ?_, ?_⟩
  · simp [align, h]
  · exact List.perm_insertionSort
      (fun a b : Key × Val => b.2 ≤ a.2)
      (reindex target (sharedKeys target F))
  · have hperm := List.perm_insertionSort
      (fun a b : Key × Val => b.2 ≤ a.2)
      (reindex target (sharedKeys target F))
    have := hperm.map (·.1)
    rw [show (reindex target (sharedKeys target F)).map (·.1) =
        keysOf (reindex target (sharedKeys target F)) from rfl,
      keysOf_reindex] at this
    exact this
  · haveI : IsTotal (Key × Val) (fun a b => b.2 ≤ a.2) :=
      ⟨fun a b => le_total b.2 a.2⟩
    haveI : IsTrans (Key × Val) (fun a b => b.2 ≤ a.2) :=
      ⟨fun _ _ _ hab hbc => le_trans hbc hab⟩
    exact List.sorted_insertionSort (fun a b : Key × Val => b.2 ≤ a.2)
      (reindex target (sharedKeys target F))
  · simp [frameReindexCols, frameIds]
  · intro p hp
    obtain ⟨ir, hmem, heq⟩ := List.mem_map.mp hp
    subst heq
    exact ⟨ir.2, by simpa using hmem, rfl⟩

/-- C3 witness input. -/
theorem c3_alignment_witness :
    pyAny (sharedKeys [(1, 5), (2, 7)] [(9, [(2, 1), (1, 2)])]) = true ∧
    ∃ t' F', align [(1, 5), (2, 7)] [(9, [(2, 1), (1, 2)])] = .ok (t', F') ∧
      t'.Perm (reindex [(1, 5), (2, 7)]
        (sharedKeys [(1, 5), (2, 7)] [(9, [(2, 1), (1, 2)])])) ∧
      (keysOf t').Perm (sharedKeys [(1, 5), (2, 7)] [(9, [(2, 1), (1, 2)])]) ∧
      t'.Pairwise (fun a b => b.2 ≤ a.2) ∧
      frameIds F' = frameIds [(9, [(2, 1), (1, 2)])] ∧
      ∀ p ∈ F', ∃ r₀, (p.1, r₀) ∈ [(9, [(2, 1), (1, 2)])] ∧
        p.2 = (keysOf t').map (fun k => (k, seriesGet r₀ k)) :=
  ⟨by decide, c3_alignment [(1, 5), (2, 7)] [(9, [(2, 1), (1, 2)])] (by decide)⟩

/-! ## C5 — degeneracy filtering -/

/-- C5: after alignment, every feature row with fewer than 2 distinct
values is excluded, every row with at least 2 distinct values is
retained, and when nothing survives the run fails with the
NoViableFeatures error before any scoring. -/
theorem c5_degeneracy (target : Series) (F : Frame) (t : Series)
    (Fa : Frame) (halign : align target F = .ok (t, Fa)) :
    ((∀ ir ∈ Fa, nDistinct ir.2 < 2) →
      prepare target F = .error .noViableFeatures) ∧
    (∀ Fk, dropDegenerate Fa = .ok Fk →
      prepare target F = .ok (t, Fk) ∧
      ∀ ir, ir ∈ Fk ↔ ir ∈ Fa ∧ 2 ≤ nDistinct ir.2) := by
  constructor
  · intro hall
    have hnil : Fa.filter (fun ir => decide (2 ≤ nDistinct ir.2)) = [] := by
      rw [List.filter_eq_nil_iff]
      intro ir hir
      simp only [decide_eq_true_eq]
      exact Nat.not_le.mpr (hall ir hir)
    unfold prepare
    rw [halign]
    simp [dropDegenerate, hnil]
  · intro Fk hdrop
    constructor
    · unfold prepare
      rw [halign]
      simp [hdrop]
    · intro ir
      unfold dropDegenerate at hdrop
      by_cases hempty :
          (Fa.filter (fun ir => decide (2 ≤ nDistinct ir.2))).isEmpty
      · simp [hempty] at hdrop
      · simp only [hempty, Bool.false_eq_true, if_false, Except.ok.injEq]
          at hdrop
        subst hdrop
        simp [List.mem_filter]

/-- C5 witness input: one degenerate and one viable row. -/
theorem c5_degeneracy_witness :
    align [(1, 5), (2, 7)] [(3, [(1, 4), (2, 4)]), (4, [(1, 1), (2, 2)])]
      = .ok ([(2, 7), (1, 5)],
        [(3, [(2, 4), (1, 4)]), (4, [(2, 2), (1, 1)])]) ∧
    (((∀ ir ∈ [((3 : FId), [((2 : Key), (4 : Val)), (1, 4)]),
          (4, [(2, 2), (1, 1)])], nDistinct ir.2 < 2) →
      prepare [(1, 5), (2, 7)]
        [(3, [(1, 4), (2, 4)]), (4, [(1, 1), (2, 2)])]
          = .error .noViableFeatures) ∧
    (∀ Fk, dropDegenerate [(3, [(2, 4), (1, 4)]), (4, [(2, 2), (1, 1)])]
        = .ok Fk →
      prepare [(1, 5), (2, 7)]
        [(3, [(1, 4), (2, 4)]), (4, [(1, 1), (2, 2)])] = .ok ([(2, 7), (1, 5)], Fk) ∧
      ∀ ir, ir ∈ Fk ↔
        ir ∈ [((3 : FId), [((2 : Key), (4 : Val)), (1, 4)]),
          (4, [(2, 2), (1, 1)])] ∧ 2 ≤ nDistinct ir.2)) :=
  ⟨rfl,
    c5_degeneracy [(1, 5), (2, 7)]
      [(3, [(1, 4), (2, 4)]), (4, [(1, 1), (2, 2)])]
      [(2, 7), (1, 5)] [(3, [(2, 4), (1, 4)]), (4, [(2, 2), (1, 1)])]
      rfl⟩

/-! ## C2 — empirical p-value and its floor -/

/-- C2: with `n` retained features and `P ≥ 1` permutations, the
reported p-value for a real score `s` is
`count(pooled null > s) / (n*P)` with a count of zero replaced by the
floor `1/(n*P)`; it is never 0 and never below `1/(n*P)`. -/
theorem c2_pvalue_floor (allPerm : List Val) (s : Val) (n P : Nat)
    (hn : 1 ≤ n) (hP : 1 ≤ P) (_hlen : allPerm.length = n * P) :
    pValueOf allPerm s n n P =
      (if (allPerm.filter (fun v => decide (s < v))).length = 0
        then 1 / ((n : ℚ) * P)
        else ((allPerm.filter (fun v => decide (s < v))).length : ℚ)
          / ((n : ℚ) * P)) ∧
    0 < pValueOf allPerm s n n P ∧
    1 / ((n : ℚ) * P) ≤ pValueOf allPerm s n n P := by
  have h1 : (0 : ℚ) < (n : ℚ) := by exact_mod_cast hn
  have h2 : (0 : ℚ) < (P : ℚ) := by exact_mod_cast hP
  have hd : (0 : ℚ) < (n : ℚ) * P := by positivity
  have hcast : ((P * n : Nat) : ℚ) = (n : ℚ) * P := by
    push_cast
    ring
  unfold pValueOf
  simp only [hcast]
  generalize (allPerm.filter (fun v => decide (s < v))).length = c
  by_cases h0 : c = 0
  · rw [h0]
    have hz : ((0 : ℕ) : ℚ) / ((n : ℚ) * P) = 0 := by simp
    rw [if_pos hz, if_pos rfl]
    exact ⟨rfl, by positivity, le_refl _⟩
  · have hcpos : (0 : ℚ) < (c : ℚ) := by
      exact_mod_cast Nat.pos_of_ne_zero h0
    have hne : ((c : ℚ) / ((n : ℚ) * P)) ≠ 0 := by positivity
    rw [if_neg hne, if_neg h0]
    refine ⟨rfl, by positivity, ?_⟩
    rw [div_le_div_iff_of_pos_right hd]
    exact_mod_cast Nat.one_le_iff_ne_zero.mpr h0

/-- C2 witness input: n = 2 features, P = 2 permutations, pooled null
`[1, 2, 3, 4]`, real score `5/2`. -/
theorem c2_pvalue_floor_witness :
    (1 ≤ 2 ∧ 1 ≤ 2 ∧ ([(1 : Val), 2, 3, 4]).length = 2 * 2) ∧
    (pValueOf [(1 : Val), 2, 3, 4] (5/2) 2 2 2 =
      (if (([(1 : Val), 2, 3, 4]).filter
          (fun v => decide ((5/2 : Val) < v))).length = 0
        then 1 / ((2 : ℚ) * 2)
        else ((([(1 : Val), 2, 3, 4]).filter
            (fun v => decide ((5/2 : Val) < v))).length : ℚ)
          / ((2 : ℚ) * 2)) ∧
      0 < pValueOf [(1 : Val), 2, 3, 4] (5/2) 2 2 2 ∧
      1 / ((2 : ℚ) * 2) ≤ pValueOf [(1 : Val), 2, 3, 4] (5/2) 2 2 2) :=
  ⟨⟨by decide, by decide, by decide⟩,
    c2_pvalue_floor [(1 : Val), 2, 3, 4] (5/2) 2 2
      (by decide) (by decide) (by decide)⟩

/-! ## C4 — double Benjamini–Hochberg and the combined FDR -/

/-- `bh` preserves the number of entries. -/
theorem bh_length (ps : List ℚ) : (bh ps).length = ps.length := by
  simp [bh]

/-- C4: forward FDR is BH on the p-values, reverse FDR is BH on
`1 - p`, and per feature the combined FDR equals the minimum of the
two, hence is at most their maximum. -/
theorem c4_fdr_min (ps : List ℚ) (i : Nat) (h : i < ps.length) :
    (fdrCols ps).1 = bh ps ∧
    (fdrCols ps).2.1 = bh (ps.map (fun p => 1 - p)) ∧
    (fdrCols ps).2.2.getD i 0 =
      min ((bh ps).getD i 0)
        ((bh (ps.map (fun p => 1 - p))).getD i 0) ∧
    (fdrCols ps).2.2.getD i 0 ≤
      max ((bh ps).getD i 0)
        ((bh (ps.map (fun p => 1 - p))).getD i 0) := by
  have hf : (bh ps).length = ps.length := bh_length ps
  have hr : (bh (ps.map (fun p => 1 - p))).length = ps.length := by
    rw [bh_length, List.length_map]
  have hz : ((bh ps).zipWith min (bh (ps.map (fun p => 1 - p)))).length
      = ps.length := by
    rw [List.length_zipWith, hf, hr, min_self]
  have hif : i < (bh ps).length := hf ▸ h
  have hir : i < (bh (ps.map (fun p => 1 - p))).length := hr ▸ h
  have hiz : i < ((bh ps).zipWith min
      (bh (ps.map (fun p => 1 - p)))).length := hz ▸ h
  have hmin : (fdrCols ps).2.2.getD i 0 =
      min ((bh ps).getD i 0)
        ((bh (ps.map (fun p => 1 - p))).getD i 0) := by
    show ((bh ps).zipWith min (bh (ps.map (fun p => 1 - p)))).getD i 0 = _
    rw [List.getD_eq_getElem _ _ hiz, List.getD_eq_getElem _ _ hif,
      List.getD_eq_getElem _ _ hir, List.getElem_zipWith]
  refine ⟨rfl, rfl, hmin, ?_⟩
  rw [hmin]
  exact le_trans (min_le_left _ _) (le_max_left _ _)

/-- C4 witness input: four p-values. -/
theorem c4_fdr_min_witness :
    (1 : Nat) < ([(1 : ℚ)/100, 4/100, 3/100, 5/1000]).length ∧
    ((fdrCols [(1 : ℚ)/100, 4/100, 3/100, 5/1000]).1 =
        bh [(1 : ℚ)/100, 4/100, 3/100, 5/1000] ∧
      (fdrCols [(1 : ℚ)/100, 4/100, 3/100, 5/1000]).2.1 =
        bh (([(1 : ℚ)/100, 4/100, 3/100, 5/1000]).map (fun p => 1 - p)) ∧
      (fdrCols [(1 : ℚ)/100, 4/100, 3/100, 5/1000]).2.2.getD 1 0 =
        min ((bh [(1 : ℚ)/100, 4/100, 3/100, 5/1000]).getD 1 0)
          ((bh (([(1 : ℚ)/100, 4/100, 3/100, 5/1000]).map
            (fun p => 1 - p))).getD 1 0) ∧
      (fdrCols [(1 : ℚ)/100, 4/100, 3/100, 5/1000]).2.2.getD 1 0 ≤
        max ((bh [(1 : ℚ)/100, 4/100, 3/100, 5/1000]).getD 1 0)
          ((bh (([(1 : ℚ)/100, 4/100, 3/100, 5/1000]).map
            (fun p => 1 - p))).getD 1 0)) :=
  ⟨by decide,
    c4_fdr_min [(1 : ℚ)/100, 4/100, 3/100, 5/1000] 1 (by decide)⟩

/-! ## C8 — bootstrap skip conditions -/

/-- The skip decision holds exactly for the three spec conditions. -/
theorem bootstrapSkipped_iff (nFeat : Option ℚ) (R m : Nat) :
    bootstrapSkipped nFeat R m = true ↔
      (R < 2 ∨ ceil632 m < 3 ∨ nFeat = none) := by
  cases nFeat with
  | none => simp [bootstrapSkipped]
  | some q =>
    simp only [bootstrapSkipped]
    by_cases h1 : R < 2
    · simp [h1]
    · by_cases h2 : ceil632 m < 3
      · simp [h1, h2]
      · simp [h1, h2]

/-- C8: the margin-of-error column is absent exactly when
`n_samplings < 2`, or the resample size `ceil(0.632·m) < 3`, or
`n_features` is not numeric; otherwise every selected feature gets a
margin of error, and with `n_permutations ≥ 1` the pipeline still runs
the permutation stage either way. -/
theorem c8_bootstrap_skip (func : ScoreFun) (t : Series) (F : Frame)
    (nFeat : Option ℚ) (nSamplings : Nat) (z : ℝ)
    (scores : List (FId × Val)) (draws : List (List Key))
    (nJobs minNPerJob : Nat) (ascending : Bool) (nPermutations : Nat)
    (arrival : List Nat) (σs : List (List Nat))
    (hP : 1 ≤ nPermutations) :
    (bootstrapStage func t F nFeat nSamplings z scores draws = none ↔
      (nSamplings < 2 ∨ ceil632 (frameCols F).length < 3 ∨
        nFeat = none)) ∧
    (¬(nSamplings < 2 ∨ ceil632 (frameCols F).length < 3 ∨
        nFeat = none) →
      ∀ i ∈ selectToBootstrap (nFeat.getD 0) scores,
        ∃ mo, (i, mo) ∈
          (bootstrapStage func t F nFeat nSamplings z scores draws).getD
            []) ∧
    ((associate func t F nJobs minNPerJob ascending nFeat nSamplings z
        nPermutations arrival draws σs).moeCol =
      bootstrapStage func t F nFeat nSamplings z
        (sortScores ascending (scoreStage func t F nJobs minNPerJob
          arrival)) draws) ∧
    ((associate func t F nJobs minNPerJob ascending nFeat nSamplings z
        nPermutations arrival draws σs).pvalCol ≠ none) := by
  have hiff := bootstrapSkipped_iff nFeat nSamplings (frameCols F).length
  have hnotlt : ¬ nPermutations < 1 := by omega
  refine ⟨?_, ?_, ?_, ?_⟩
  · unfold bootstrapStage
    by_cases hsk :
        bootstrapSkipped nFeat nSamplings (frameCols F).length = true
    · rw [if_pos hsk]
      simp [hiff.mp hsk]
    · rw [if_neg hsk]
      exact ⟨fun hcon => Option.noConfusion hcon,
        fun hd => absurd (hiff.mpr hd) hsk⟩
  · intro hdisj i hi
    have hsk : ¬ bootstrapSkipped nFeat nSamplings
        (frameCols F).length = true := fun h => hdisj (hiff.mp h)
    unfold bootstrapStage
    rw [if_neg hsk]
    refine ⟨marginOfError z (featureSample
      (sampledScores func t F (selectToBootstrap (nFeat.getD 0) scores)
        draws) i) nSamplings, ?_⟩
    simp only [Option.getD_some]
    exact List.mem_map.mpr ⟨i, hi, rfl⟩
  · simp [associate, hnotlt]
  · simp [associate, hnotlt]

/-- C8 witness input: a skipping configuration (one sample column, so
`ceil(0.632·1) = 1 < 3`) with one permutation. -/
theorem c8_bootstrap_skip_witness :
    1 ≤ 1 ∧
    ((bootstrapStage (fun _ _ => 0) [(1, 1)] [(1, [(1, 1)])] (some 1) 2
        0 [(1, 0)] [] = none ↔
      (2 < 2 ∨ ceil632 (frameCols [(1, [((1 : Key), (1 : Val))])]).length
          < 3 ∨ (some (1 : ℚ)) = none)) ∧
    (¬(2 < 2 ∨ ceil632 (frameCols [(1, [((1 : Key), (1 : Val))])]).length
          < 3 ∨ (some (1 : ℚ)) = none) →
      ∀ i ∈ selectToBootstrap ((some (1 : ℚ)).getD 0) [(1, 0)],
        ∃ mo, (i, mo) ∈
          (bootstrapStage (fun _ _ => 0) [(1, 1)] [(1, [(1, 1)])]
            (some 1) 2 0 [(1, 0)] []).getD []) ∧
    ((associate (fun _ _ => 0) [(1, 1)] [(1, [(1, 1)])] 1 100 false
        (some 1) 2 0 1 [] [] []).moeCol =
      bootstrapStage (fun _ _ => 0) [(1, 1)] [(1, [(1, 1)])] (some 1) 2
        0 (sortScores false (scoreStage (fun _ _ => 0) [(1, 1)]
          [(1, [(1, 1)])] 1 100 [])) []) ∧
    ((associate (fun _ _ => 0) [(1, 1)] [(1, [(1, 1)])] 1 100 false
        (some 1) 2 0 1 [] [] []).pvalCol ≠ none)) :=
  ⟨by decide,
    c8_bootstrap_skip (fun _ _ => 0) [(1, 1)] [(1, [(1, 1)])] (some 1)
      2 0 [(1, 0)] [] 1 100 false 1 [] [] (by decide)⟩

/-! ## C9 — permutation rounds shuffle a copy of the target -/

/-- Reading every position of a list in order reproduces it. -/
theorem map_getD_range (l : List Val) :
    (List.range l.length).map (fun j => l.getD j 0) = l := by
  apply List.ext_getElem
  · simp
  · intro i h1 h2
    simp [List.getD, List.getElem?_eq_getElem h2]

/-- Applying a position permutation yields a permutation of the
list. -/
theorem applyPerm_perm (σ : List Nat) (l : List Val)
    (hσ : σ.Perm (List.range l.length)) :
    (applyPerm σ l).Perm l := by
  have h := hσ.map (fun j => l.getD j 0)
  rwa [map_getD_range] at h

/-- Invariant of the round loop: the target cell is never written, and
every recorded round vector is a permutation of the original target
values and is exactly what the features were scored against. -/
theorem permRounds_spec (func : ScoreFun) (F : Frame) :
    ∀ (σs : List (List Nat)) (h : PermHeap),
      h.shuffledCell.Perm (valsOf h.targetCell) →
      (∀ σ ∈ σs, σ.Perm (List.range (valsOf h.targetCell).length)) →
      (permRounds func F h σs).2.targetCell = h.targetCell ∧
      ∀ rc ∈ (permRounds func F h σs).1,
        rc.1.Perm (valsOf h.targetCell) ∧
        rc.2 = permScoreCol func F rc.1 := by
  intro σs
  induction σs with
  | nil =>
    intro h _ _
    exact ⟨rfl, by intro rc hrc; simp [permRounds] at hrc⟩
  | cons σ σs ih =>
    intro h hsh hσ
    have hlen : h.shuffledCell.length = (valsOf h.targetCell).length :=
      hsh.length_eq
    have hσ0 : σ.Perm (List.range h.shuffledCell.length) := by
      rw [hlen]
      exact hσ σ (List.mem_cons_self σ σs)
    have hstep : (applyPerm σ h.shuffledCell).Perm
        (valsOf h.targetCell) :=
      (applyPerm_perm σ h.shuffledCell hσ0).trans hsh
    have hIH := ih (permStep h σ) hstep
      (fun σ' hσ' => hσ σ' (List.mem_cons_of_mem σ hσ'))
    refine ⟨hIH.1, ?_⟩
    intro rc hrc
    rcases List.mem_cons.mp hrc with hhd | htl
    · subst hhd
      exact ⟨hstep, rfl⟩
    · exact hIH.2 rc htl

/-- C9: every vector scored in a permutation round is a permutation of
the target's values (a full shuffle of a private copy), and the
caller's target is unchanged when `_permute_and_score` returns. -/
theorem c9_permutation_readonly (func : ScoreFun) (t : Series)
    (F : Frame) (σs : List (List Nat))
    (hσ : ∀ σ ∈ σs, σ.Perm (List.range t.length)) :
    (permuteAndScore func t F σs).2.targetCell = t ∧
    ∀ rc ∈ (permuteAndScore func t F σs).1,
      rc.1.Perm (valsOf t) ∧ rc.2 = permScoreCol func F rc.1 := by
  have hlen : (valsOf t).length = t.length := by simp [valsOf]
  exact permRounds_spec func F σs ⟨t, valsOf t⟩ (List.Perm.refl _)
    (by simpa [hlen] using hσ)

/-- C9 witness input: two shuffles over two samples. -/
theorem c9_permutation_readonly_witness :
    (∀ σ ∈ [[1, 0], [0, 1]], σ.Perm (List.range
      ([((1 : Key), (5 : Val)), (2, 7)]).length)) ∧
    ((permuteAndScore (fun a _ => a.headD 0) [(1, 5), (2, 7)]
        [(3, [(1, 1), (2, 2)])] [[1, 0], [0, 1]]).2.targetCell =
      [(1, 5), (2, 7)] ∧
    ∀ rc ∈ (permuteAndScore (fun a _ => a.headD 0) [(1, 5), (2, 7)]
        [(3, [(1, 1), (2, 2)])] [[1, 0], [0, 1]]).1,
      rc.1.Perm (valsOf [(1, 5), (2, 7)]) ∧
      rc.2 = permScoreCol (fun a _ => a.headD 0)
        [(3, [(1, 1), (2, 2)])] rc.1) :=
  ⟨by decide,
    c9_permutation_readonly (fun a _ => a.headD 0) [(1, 5), (2, 7)]
      [(3, [(1, 1), (2, 2)])] [[1, 0], [0, 1]] (by decide)⟩

/-! ## C10 — scoring-function argument order -/

/-- C10: the main scoring stage and the permutation stage call
`function(target, feature)`, the bootstrap stage calls
`function(feature, resampled_target)`; for a symmetric function all
three orientations agree, and for an asymmetric function there are
inputs where the bootstrap sample value differs from the
target-first orientation of the same vectors. -/
theorem c10_argument_order :
    (∀ (func : ScoreFun) (t : Series) (F : Frame),
      scoreFeatures func t F =
        F.map (fun ir => (ir.1, func (valsOf t) (valsOf ir.2)))) ∧
    (∀ (func : ScoreFun) (F : Frame) (sh : List Val),
      permScoreCol func F sh =
        F.map (fun ir => (ir.1, func sh (valsOf ir.2)))) ∧
    (∀ (func : ScoreFun) (t : Series) (F : Frame) (sel : List FId)
      (ks : List Key),
      bootRound func t F sel ks = sel.map (fun i =>
        (i, func (valsOf (reindex (frameGet F i) ks))
          (valsOf (reindex t ks))))) ∧
    (∀ func : ScoreFun, (∀ a b, func a b = func b a) →
      ∀ (t : Series) (F : Frame) (sel : List FId) (ks : List Key),
      bootRound func t F sel ks = sel.map (fun i =>
        (i, func (valsOf (reindex t ks))
          (valsOf (reindex (frameGet F i) ks))))) ∧
    (∃ (func : ScoreFun) (t : Series) (F : Frame) (sel : List FId)
      (ks : List Key) (i : FId), i ∈ sel ∧
      lookupScore (bootRound func t F sel ks) i ≠
        func (valsOf (reindex t ks))
          (valsOf (reindex (frameGet F i) ks))) := by
  refine ⟨fun _ _ _ => rfl, fun _ _ _ => rfl, fun _ _ _ _ _ => rfl,
    ?_, ?_⟩
  · intro func hsym t F sel ks
    unfold bootRound
    exact List.map_congr_left (fun i _ => by rw [hsym])
  · exact ⟨fun a _ => a.headD 0, [(1, 10)], [(5, [(1, 3)])], [5], [1],
      5, by decide, by decide⟩

/-! ## C7 — bootstrap resampling and margin of error -/

/-- Looking a key up in a table built by mapping over the key list
returns that key's value. -/
theorem lookupScore_map_self (g : FId → Val) :
    ∀ (sel : List FId) (i : FId), i ∈ sel →
      lookupScore (sel.map (fun j => (j, g j))) i = g i := by
  intro sel
  induction sel with
  | nil =>
    intro i hi
    simp at hi
  | cons a sel ih =>
    intro i hi
    unfold lookupScore
    rw [List.map_cons, List.find?_cons]
    by_cases hai : a = i
    · subst hai
      simp
    · simp only [decide_eq_false hai, Bool.false_eq_true, if_false]
      have hitail : i ∈ sel := by
        rcases List.mem_cons.mp hi with h | h
        · exact absurd h.symm hai
        · exact h
      have h := ih i hitail
      unfold lookupScore at h
      exact h

/-- Row `i` of one bootstrap column is feature `i`'s score against the
resampled target. -/
theorem lookupScore_bootRound (func : ScoreFun) (t : Series)
    (F : Frame) (sel : List FId) (ks : List Key) (i : FId)
    (hi : i ∈ sel) :
    lookupScore (bootRound func t F sel ks) i =
      func (valsOf (reindex (frameGet F i) ks))
        (valsOf (reindex t ks)) :=
  lookupScore_map_self
    (fun j => func (valsOf (reindex (frameGet F j) ks))
      (valsOf (reindex t ks))) sel i hi

/-- Row `i` of the whole `sampled_scores` table is the round-by-round
score sample of feature `i`. -/
theorem featureSample_eq (func : ScoreFun) (t : Series) (F : Frame)
    (sel : List FId) (draws : List (List Key)) (i : FId)
    (hi : i ∈ sel) :
    featureSample (sampledScores func t F sel draws) i =
      draws.map (fun ks =>
        func (valsOf (reindex (frameGet F i) ks))
          (valsOf (reindex t ks))) := by
  unfold featureSample sampledScores
  rw [List.map_map]
  exact List.map_congr_left
    (fun ks _ => lookupScore_bootRound func t F sel ks i hi)

/-- C7: when the bootstrap stage runs, each of the R rounds restricts
the target and the selected feature rows to the drawn keys (in drawn
order, `ceil(0.632·m)` of them), scores each selected feature against
the resampled target, and the reported margin of error equals
`z * (sample std dev / sqrt R)` over that R-round score sample, where
`z` stands for the inverse normal CDF at the confidence level. -/
theorem c7_bootstrap_moe (func : ScoreFun) (t : Series) (F : Frame)
    (nFeat : ℚ) (R : Nat) (z : ℝ) (scores : List (FId × Val))
    (draws : List (List Key))
    (hR : draws.length = R)
    (hsz : ∀ ks ∈ draws, ks.length = ceil632 (frameCols F).length)
    (hskip : bootstrapSkipped (some nFeat) R (frameCols F).length
      = false) :
    ∃ moes, bootstrapStage func t F (some nFeat) R z scores draws
        = some moes ∧
      ∀ i ∈ selectToBootstrap nFeat scores,
        (i, marginOfError z (draws.map (fun ks =>
          func (valsOf (reindex (frameGet F i) ks))
            (valsOf (reindex t ks)))) R) ∈ moes ∧
        (draws.map (fun ks =>
          func (valsOf (reindex (frameGet F i) ks))
            (valsOf (reindex t ks)))).length = R ∧
        (∀ ks ∈ draws,
          (valsOf (reindex t ks)).length =
            ceil632 (frameCols F).length ∧
          (valsOf (reindex (frameGet F i) ks)).length =
            ceil632 (frameCols F).length) ∧
        marginOfError z (draws.map (fun ks =>
          func (valsOf (reindex (frameGet F i) ks))
            (valsOf (reindex t ks)))) R =
          z * (Real.sqrt (sampleVar (draws.map (fun ks =>
            func (valsOf (reindex (frameGet F i) ks))
              (valsOf (reindex t ks))))) / Real.sqrt (R : ℝ)) := by
  refine ⟨(selectToBootstrap nFeat scores).map (fun i =>
    (i, marginOfError z (featureSample
      (sampledScores func t F (selectToBootstrap nFeat scores) draws)
      i) R)), ?_, ?_⟩
  · unfold bootstrapStage
    rw [if_neg (by rw [hskip]; exact Bool.false_ne_true)]
    simp only [Option.getD_some]
  · intro i hi
    refine ⟨?_, ?_, ?_, rfl⟩
    · refine List.mem_map.mpr ⟨i, hi, ?_⟩
      rw [featureSample_eq func t F _ draws i hi]
    · rw [List.length_map, hR]
    · intro ks hks
      constructor
      · simp [valsOf, reindex, hsz ks hks]
      · simp [valsOf, reindex, hsz ks hks]

/-- C7 witness input: four samples (`ceil(0.632·4) = 3`), two rounds,
one selected feature. -/
theorem c7_bootstrap_moe_witness :
    (([[1, 1, 2], [2, 3, 4]] : List (List Key)).length = 2 ∧
      (∀ ks ∈ ([[1, 1, 2], [2, 3, 4]] : List (List Key)), ks.length =
        ceil632 (frameCols
          [(9, [((1 : Key), (1 : Val)), (2, 2), (3, 3), (4, 4)])]).length)
      ∧ bootstrapSkipped (some 1) 2 (frameCols
        [(9, [((1 : Key), (1 : Val)), (2, 2), (3, 3), (4, 4)])]).length
        = false) ∧
    (∃ moes, bootstrapStage (fun a _ => a.headD 0)
        [(1, 4), (2, 3), (3, 2), (4, 1)]
        [(9, [(1, 1), (2, 2), (3, 3), (4, 4)])] (some 1) 2 0 [(9, 5)]
        [[1, 1, 2], [2, 3, 4]] = some moes ∧
      ∀ i ∈ selectToBootstrap 1 [((9 : FId), (5 : Val))],
        (i, marginOfError 0 (([[1, 1, 2], [2, 3, 4]] :
            List (List Key)).map (fun ks =>
          (fun (a : List Val) (_ : List Val) => a.headD 0)
            (valsOf (reindex (frameGet
              [(9, [(1, 1), (2, 2), (3, 3), (4, 4)])] i) ks))
            (valsOf (reindex [(1, 4), (2, 3), (3, 2), (4, 1)] ks)))) 2)
          ∈ moes ∧
        (([[1, 1, 2], [2, 3, 4]] : List (List Key)).map (fun ks =>
          (fun (a : List Val) (_ : List Val) => a.headD 0)
            (valsOf (reindex (frameGet
              [(9, [(1, 1), (2, 2), (3, 3), (4, 4)])] i) ks))
            (valsOf (reindex [(1, 4), (2, 3), (3, 2), (4, 1)] ks)))).length
          = 2 ∧
        (∀ ks ∈ ([[1, 1, 2], [2, 3, 4]] : List (List Key)),
          (valsOf (reindex [((1 : Key), (4 : Val)), (2, 3), (3, 2), (4, 1)]
            ks)).length = ceil632 (frameCols
              [(9, [((1 : Key), (1 : Val)), (2, 2), (3, 3), (4, 4)])]).length
          ∧ (valsOf (reindex (frameGet
              [(9, [((1 : Key), (1 : Val)), (2, 2), (3, 3), (4, 4)])] i)
              ks)).length = ceil632 (frameCols
              [(9, [((1 : Key), (1 : Val)), (2, 2), (3, 3), (4, 4)])]).length)
          ∧
        marginOfError 0 (([[1, 1, 2], [2, 3, 4]] :
            List (List Key)).map (fun ks =>
          (fun (a : List Val) (_ : List Val) => a.headD 0)
            (valsOf (reindex (frameGet
              [(9, [(1, 1), (2, 2), (3, 3), (4, 4)])] i) ks))
            (valsOf (reindex [(1, 4), (2, 3), (3, 2), (4, 1)] ks)))) 2 =
          0 * (Real.sqrt (sampleVar (([[1, 1, 2], [2, 3, 4]] :
            List (List Key)).map (fun ks =>
          (fun (a : List Val) (_ : List Val) => a.headD 0)
            (valsOf (reindex (frameGet
              [(9, [(1, 1), (2, 2), (3, 3), (4, 4)])] i) ks))
            (valsOf (reindex [(1, 4), (2, 3), (3, 2), (4, 1)] ks)))))
            / Real.sqrt ((2 : Nat) : ℝ))) :=
  ⟨⟨by decide, by decide, by decide⟩,
    c7_bootstrap_moe (fun a _ => a.headD 0)
      [(1, 4), (2, 3), (3, 2), (4, 1)]
      [(9, [(1, 1), (2, 2), (3, 3), (4, 4)])] 1 2 0 [(9, 5)]
      [[1, 1, 2], [2, 3, 4]] (by decide) (by decide) (by decide)⟩

/-! ## C1 — partition equivalence -/

/-- Concatenating the `w` contiguous chunks gives the first
`w * n_per_job` rows. -/
theorem chunksOf_flatten (F : Frame) (npj : Nat) :
    ∀ w : Nat, (chunksOf F npj w).flatten = F.take (w * npj) := by
  intro w
  induction w with
  | zero => simp [chunksOf]
  | succ w ih =>
    unfold chunksOf at ih ⊢
    rw [List.range_succ, List.map_append, List.flatten_append, ih]
    simp only [List.map_cons, List.map_nil, List.flatten_cons,
      List.flatten_nil, List.append_nil]
    rw [Nat.succ_mul, List.take_add]

/-- Collecting every position of a list once reproduces the list. -/
theorem range_filterMap_getElem {α : Type _} : ∀ l : List α,
    (List.range l.length).filterMap (fun j => l[j]?) = l := by
  intro l
  induction l with
  | nil => simp
  | cons a l ih =>
    rw [List.length_cons, List.range_succ_eq_map, List.filterMap_cons,
      List.filterMap_map]
    have hcomp : ((fun j => (a :: l)[j]?) ∘ (· + 1)) =
        fun j : Nat => l[j]? := by
      funext j
      simp
    simp only [List.getElem?_cons_zero, hcomp, ih]

/-- Collecting chunk results in any arrival order yields a permutation
of the in-order chunk results. -/
theorem parallelize_perm {α β : Type _} (work : α → List β)
    (args : List α) (arrival : List Nat)
    (harr : arrival.Perm (List.range args.length)) :
    (parallelize work args arrival).Perm (args.map work) := by
  unfold parallelize
  have hlen : (args.map work).length = args.length := List.length_map _ _
  have h := harr.filterMap (fun j => (args.map work)[j]?)
  rw [← hlen] at h
  rwa [range_filterMap_getElem (args.map work)] at h

/-- Removing the elements of a prefix, in order, from a duplicate-free
list leaves the suffix. -/
theorem foldl_erase_append : ∀ (l1 l2 : List FId),
    (l1 ++ l2).Nodup →
    l1.foldl (fun acc i => acc.erase i) (l1 ++ l2) = l2 := by
  intro l1
  induction l1 with
  | nil =>
    intro l2 _
    simp
  | cons a l1 ih =>
    intro l2 hnd
    rw [List.cons_append] at hnd
    rw [List.cons_append, List.foldl_cons, List.erase_cons_head]
    exact ih l2 (List.nodup_cons.mp hnd).2

/-- With unique row labels, the leftover bookkeeping keeps exactly the
row labels beyond the dispatched prefix, in order. -/
theorem leftoverIds_eq (F : Frame) (npj w : Nat)
    (hnd : (frameIds F).Nodup) :
    leftoverIds F npj w = (frameIds F).drop (w * npj) := by
  unfold leftoverIds
  have hmapids : (chunksOf F npj w).map frameIds =
      (chunksOf F npj w).map (List.map (·.1)) := rfl
  have hids : ((chunksOf F npj w).map frameIds).flatten =
      (frameIds F).take (w * npj) := by
    rw [hmapids, ← List.map_flatten, chunksOf_flatten, List.map_take]
    rfl
  rw [hids]
  have hsplit := List.take_append_drop (w * npj) (frameIds F)
  have h := foldl_erase_append ((frameIds F).take (w * npj))
    ((frameIds F).drop (w * npj)) (by rw [hsplit]; exact hnd)
  rw [hsplit] at h
  exact h

/-- Selecting the suffix rows by label recovers the suffix itself when
row labels are unique. -/
theorem frameSelectRows_drop (F : Frame) (k : Nat)
    (hnd : (frameIds F).Nodup) :
    frameSelectRows F ((frameIds F).drop k) = F.drop k := by
  unfold frameSelectRows
  have hdropids : (frameIds F).drop k = (F.drop k).map (·.1) := by
    unfold frameIds
    rw [← List.map_drop]
  rw [hdropids, List.map_map]
  have hid : ∀ p ∈ F.drop k,
      ((fun i => (i, frameGet F i)) ∘ (·.1)) p = id p := by
    intro p hp
    obtain ⟨i, r⟩ := p
    have hmem : (i, r) ∈ F := List.drop_subset k F hp
    simp only [Function.comp_apply, id_eq]
    rw [frameGet_eq_of_mem F i r hmem hnd]
  rw [List.map_congr_left hid, List.map_id]

/-- The scoring stage, along every one of its dispatch branches, is a
permutation of the sequential score table. -/
theorem scoreStage_perm (func : ScoreFun) (t : Series) (F : Frame)
    (w mnpj : Nat) (arrival : List Nat)
    (hnd : (frameIds F).Nodup)
    (harr : arrival.Perm (List.range w)) :
    (scoreStage func t F w mnpj arrival).Perm
      (scoreFeatures func t F) := by
  unfold scoreStage
  by_cases h1 : w = 1
  · rw [if_pos h1]
  · rw [if_neg h1]
    by_cases h2 : F.length / w < mnpj
    · rw [if_pos h2]
    · rw [if_neg h2]
      have hchlen : (chunksOf F (F.length / w) w).length = w := by
        simp [chunksOf]
      have hmain : (parallelize (scoreFeatures func t)
          (chunksOf F (F.length / w) w) arrival).Perm
          ((chunksOf F (F.length / w) w).map (scoreFeatures func t)) :=
        parallelize_perm (scoreFeatures func t) _ arrival
          (by rw [hchlen]; exact harr)
      have hflatten : ((chunksOf F (F.length / w) w).map
          (scoreFeatures func t)).flatten =
          scoreFeatures func t (F.take (w * (F.length / w))) := by
        unfold scoreFeatures
        rw [← List.map_flatten, chunksOf_flatten]
      have hmainperm : ((parallelize (scoreFeatures func t)
          (chunksOf F (F.length / w) w) arrival).flatten).Perm
          (scoreFeatures func t (F.take (w * (F.length / w)))) := by
        rw [← hflatten]
        exact hmain.flatten
      rw [leftoverIds_eq F (F.length / w) w hnd]
      by_cases h3 : ((frameIds F).drop (w * (F.length / w))).isEmpty
      · rw [if_pos h3]
        have hdropnil : F.drop (w * (F.length / w)) = [] := by
          have : (frameIds F).drop (w * (F.length / w)) = [] :=
            List.isEmpty_iff.mp h3
          have hlen := congrArg List.length this
          rw [List.length_drop] at hlen
          unfold frameIds at hlen
          rw [List.length_map] at hlen
          apply List.eq_nil_of_length_eq_zero
          rw [List.length_drop]
          exact hlen
        have htake : F.take (w * (F.length / w)) = F := by
          apply List.take_of_length_le
          have hlen0 := congrArg List.length hdropnil
          simp only [List.length_drop, List.length_nil] at hlen0
          omega
        rw [htake] at hmainperm
        exact hmainperm
      · rw [if_neg h3]
        rw [frameSelectRows_drop F (w * (F.length / w)) hnd]
        have happ := hmainperm.append_right
          (scoreFeatures func t (F.drop (w * (F.length / w))))
        have hsplit : scoreFeatures func t (F.take (w * (F.length / w)))
            ++ scoreFeatures func t (F.drop (w * (F.length / w))) =
            scoreFeatures func t F := by
          unfold scoreFeatures
          rw [← List.map_append, List.take_append_drop]
        rw [hsplit] at happ
        exact happ

/-- C1: with unique feature identifiers and any worker count `w ≥ 1`,
the scoring stage run through the Partitioner gives every feature the
same score as fully sequential scoring, the leftover list has exactly
`n mod w` entries, and each leftover feature appears exactly once in
the final score table. -/
theorem c1_partition_equivalence (func : ScoreFun) (t : Series)
    (F : Frame) (w mnpj : Nat) (arrival : List Nat)
    (_hw : 1 ≤ w) (hnd : (frameIds F).Nodup)
    (harr : arrival.Perm (List.range w)) :
    (scoreStage func t F w mnpj arrival).Perm
      (scoreFeatures func t F) ∧
    (∀ i ∈ frameIds F,
      lookupScore (scoreStage func t F w mnpj arrival) i =
        lookupScore (scoreFeatures func t F) i) ∧
    (leftoverIds F (F.length / w) w).length = F.length % w ∧
    (∀ i ∈ leftoverIds F (F.length / w) w,
      ((scoreStage func t F w mnpj arrival).map (·.1)).count i = 1) := by
  have hperm := scoreStage_perm func t F w mnpj arrival hnd harr
  have hseqids : (scoreFeatures func t F).map (·.1) = frameIds F :=
    scoreFeatures_ids func t F
  have hidsperm : ((scoreStage func t F w mnpj arrival).map (·.1)).Perm
      (frameIds F) := by
    have := hperm.map (·.1)
    rwa [hseqids] at this
  refine ⟨hperm, ?_, ?_, ?_⟩
  · intro i hi
    apply lookupScore_perm _ _ hperm
    · rw [hseqids]
      exact hnd
    · rw [hseqids]
      exact hi
  · rw [leftoverIds_eq F (F.length / w) w hnd, List.length_drop]
    have hids : (frameIds F).length = F.length := by
      unfold frameIds
      rw [List.length_map]
    have hdm := Nat.div_add_mod F.length w
    omega
  · intro i hi
    have himem : i ∈ frameIds F := by
      rw [leftoverIds_eq F (F.length / w) w hnd] at hi
      exact List.drop_subset _ _ hi
    rw [hidsperm.count_eq]
    exact List.count_eq_one_of_mem hnd himem

/-- C1 witness input: five features, two workers, minimum chunk size
1, chunk results arriving out of order; one leftover feature. -/
theorem c1_partition_equivalence_witness :
    (1 ≤ 2 ∧
      (frameIds [(10, [((1 : Key), (1 : Val))]), (11, [(1, 2)]),
        (12, [(1, 3)]), (13, [(1, 4)]), (14, [(1, 5)])]).Nodup ∧
      ([1, 0] : List Nat).Perm (List.range 2)) ∧
    ((scoreStage (fun a b => a.headD 0 + b.headD 0) [(1, 7)]
        [(10, [(1, 1)]), (11, [(1, 2)]), (12, [(1, 3)]), (13, [(1, 4)]),
          (14, [(1, 5)])] 2 1 [1, 0]).Perm
      (scoreFeatures (fun a b => a.headD 0 + b.headD 0) [(1, 7)]
        [(10, [(1, 1)]), (11, [(1, 2)]), (12, [(1, 3)]), (13, [(1, 4)]),
          (14, [(1, 5)])]) ∧
    (∀ i ∈ frameIds [(10, [((1 : Key), (1 : Val))]), (11, [(1, 2)]),
        (12, [(1, 3)]), (13, [(1, 4)]), (14, [(1, 5)])],
      lookupScore (scoreStage (fun a b => a.headD 0 + b.headD 0)
        [(1, 7)] [(10, [(1, 1)]), (11, [(1, 2)]), (12, [(1, 3)]),
          (13, [(1, 4)]), (14, [(1, 5)])] 2 1 [1, 0]) i =
      lookupScore (scoreFeatures (fun a b => a.headD 0 + b.headD 0)
        [(1, 7)] [(10, [(1, 1)]), (11, [(1, 2)]), (12, [(1, 3)]),
          (13, [(1, 4)]), (14, [(1, 5)])]) i) ∧
    (leftoverIds [(10, [((1 : Key), (1 : Val))]), (11, [(1, 2)]),
        (12, [(1, 3)]), (13, [(1, 4)]), (14, [(1, 5)])] (5 / 2) 2).length
      = 5 % 2 ∧
    (∀ i ∈ leftoverIds [(10, [((1 : Key), (1 : Val))]), (11, [(1, 2)]),
        (12, [(1, 3)]), (13, [(1, 4)]), (14, [(1, 5)])] (5 / 2) 2,
      ((scoreStage (fun a b => a.headD 0 + b.headD 0) [(1, 7)]
        [(10, [(1, 1)]), (11, [(1, 2)]), (12, [(1, 3)]), (13, [(1, 4)]),
          (14, [(1, 5)])] 2 1 [1, 0]).map (·.1)).count i = 1)) :=
  ⟨⟨by decide, by decide, by decide⟩,
    c1_partition_equivalence (fun a b => a.headD 0 + b.headD 0)
      [(1, 7)]
      [(10, [(1, 1)]), (11, [(1, 2)]), (12, [(1, 3)]), (13, [(1, 4)]),
        (14, [(1, 5)])] 2 1 [1, 0] (by decide) (by decide) (by decide)⟩

end CCAL
